import Mathlib

/-!
Verification development for the WorkSwitch launch orchestrator and
time-based trigger loop (Rust sources under `src-tauri/src/`).

The Rust code is shallowly embedded: pure data types mirror the structs in
`config.rs`; the orchestration loops of `commands.rs::launch_profile` and
`scheduler.rs::run_scheduler` become explicit state-passing functions.
Concurrent observations of the shared atomic `cancel_flag` are modelled by an
oracle (`StepBehavior`) describing, for each step, which arm of the
`tokio::select!` race resolves first and at which 100 ms check (if any) the
cancel flag is observed set during the inter-step delay.  Machine integers
(`u64` millisecond counts) are modelled as `Nat`: the quantities involved
(delays, indices) never approach 2^64 and the source performs no wrapping
arithmetic on them (`saturating_sub` is `Nat` subtraction).
-/

namespace WorkSwitch

/-- Embedding of `config.rs::Step` (the fields relevant to orchestration; serde defaults
are irrelevant here because the orchestrator receives fully-formed values). -/
structure Step where
  id : String
  name : String
  step_type : String
  enabled : Bool
  delay_after : Nat
  process_name : String
  target : Option String
  check_running : Option Bool
  command : Option String
  working_dir : Option String
  keep_open : Option Bool
  deriving Repr, DecidableEq

/-- Modelled from the spec: the `Schedule` struct declaration is absent from
the provided `config.rs` (only its use in `scheduler.rs` survives).  Fields
follow that use — `schedule.enabled`, `schedule.time` (an "%H:%M" string
compared for equality), `schedule.days` (a set of weekday numbers,
`num_days_from_sunday`, queried only via `is_empty` and `contains`) — and the
spec's "enabled flag, a time-of-day trigger value (hour:minute granularity),
and a set of weekdays (empty set = every day)". -/
structure Schedule where
  enabled : Bool
  time : String
  days : List Nat
  deriving Repr, DecidableEq

/-- Embedding of `config.rs::Profile`, extended with the `schedule` field that
`scheduler.rs` reads (`profile.schedule : Option<Schedule>`). -/
structure Profile where
  id : String
  name : String
  description : String
  steps : List Step
  schedule : Option Schedule
  deriving Repr, DecidableEq

/-! ## Step-type dispatch (`launcher.rs::launch_step`) -/

/-- The four closed step variants of `launcher.rs`, each handled by a
dedicated launch function (`launch_app`/`launch_terminal`/`launch_folder`/
`launch_url`). -/
inductive StepKind
  | app
  | terminal
  | folder
  | url
  deriving Repr, DecidableEq

/-- Embedding of `launcher.rs::launch_step`.  The per-variant platform actions spawn OS
processes, so they are abstracted as a parameter `exec`; the function returns
the `Result` together with which variant's action (if any) was invoked.
Mirrors the Rust `match step.step_type.as_str()` with its
`_ => Err(format!("Unknown step type: {}", step.step_type))` fallback. -/
def launch_step (exec : StepKind → Step → Except String Unit) (step : Step) :
    Except String Unit × Option StepKind :=
  match step.step_type with
  | "app" => (exec .app step, some .app)
  | "terminal" => (exec .terminal step, some .terminal)
  | "folder" => (exec .folder step, some .folder)
  | "url" => (exec .url step, some .url)
  | t => (.error ("Unknown step type: " ++ t), none)

/-! ## The inter-step delay loop (`commands.rs::launch_profile`, lines 110–124)

```rust
let delay = step.delay_after.max(default_delay);
if delay > 0 {
    let mut remaining = delay;
    while remaining > 0 {
        if cancel_flag.load(Ordering::SeqCst) { ... return Ok(()); }
        let sleep_ms = remaining.min(100);
        tokio::time::sleep(Duration::from_millis(sleep_ms)).await;
        remaining = remaining.saturating_sub(sleep_ms);
    }
}
```

The shared atomic `cancel_flag` is only ever set (never cleared) during a
run, so its observations by the loop are described by the index of the first
check that reads `true`: `cancelIdx = some k` means checks `0..k-1` read
`false` and every check from `k` on reads `true`; `none` means every check
reads `false`.  The function returns the list of slept increments (in
milliseconds) and whether the loop exited through the cancel branch. -/
def delayLoopGo : Nat → Option Nat → Nat → List Nat × Bool
  | 0, _, _ => ([], false)
  | fuel + 1, cancelIdx, remaining =>
    if remaining = 0 then ([], false)
    else if cancelIdx = some 0 then ([], true)
    else
      let s := min remaining 100
      let r := delayLoopGo fuel (cancelIdx.map (· - 1)) (remaining - s)
      (s :: r.1, r.2)

/-- The delay loop proper.  The `while` loop strictly decreases `remaining`
by `min remaining 100 ≥ 1` per iteration, so `remaining` itself bounds the
iteration count and serves as structural fuel; `delayLoop_eq` below recovers
the loop-shaped unfolding. -/
def delayLoop (cancelIdx : Option Nat) (remaining : Nat) : List Nat × Bool :=
  delayLoopGo remaining cancelIdx remaining

theorem delayLoopGo_congr :
    ∀ (fuel fuel' : Nat) (c : Option Nat) (r : Nat), r ≤ fuel → r ≤ fuel' →
      delayLoopGo fuel c r = delayLoopGo fuel' c r := by
  intro fuel
  induction fuel with
  | zero =>
    intro fuel' c r h1 _
    cases fuel' with
    | zero => rfl
    | succ m =>
      have : r = 0 := by omega
      subst this
      rfl
  | succ n ih =>
    intro fuel' c r h1 h2
    cases fuel' with
    | zero =>
      have : r = 0 := by omega
      subst this
      rfl
    | succ m =>
      show (if r = 0 then ([], false)
        else if c = some 0 then ([], true)
        else
          let s := min r 100
          let q := delayLoopGo n (c.map (· - 1)) (r - s)
          (s :: q.1, q.2)) =
        (if r = 0 then ([], false)
        else if c = some 0 then ([], true)
        else
          let s := min r 100
          let q := delayLoopGo m (c.map (· - 1)) (r - s)
          (s :: q.1, q.2))
      by_cases h0 : r = 0
      · simp [h0]
      · by_cases hc : c = some 0
        · simp [h0, hc]
        · simp only [h0, hc, if_false]
          rw [ih m (c.map (· - 1)) (r - min r 100) (by omega) (by omega)]

theorem delayLoop_eq (c : Option Nat) (r : Nat) :
    delayLoop c r =
      if r = 0 then ([], false)
      else if c = some 0 then ([], true)
      else
        let s := min r 100
        let q := delayLoop (c.map (· - 1)) (r - s)
        (s :: q.1, q.2) := by
  cases r with
  | zero => rfl
  | succ n =>
    show delayLoopGo (n + 1) c (n + 1) = _
    by_cases hc : c = some 0
    · simp [delayLoopGo, hc]
    · simp only [delayLoopGo, Nat.succ_ne_zero, if_false, hc,
        Nat.add_eq_zero, Nat.one_ne_zero, and_false]
      unfold delayLoop
      rw [delayLoopGo_congr n (n + 1 - min (n + 1) 100) (c.map (· - 1))
        (n + 1 - min (n + 1) 100) (by omega) (by omega)]

/-- Effective inter-step delay: `step.delay_after.max(default_delay)`
(`commands.rs` line 111). -/
def effectiveDelay (step : Step) (default_delay : Nat) : Nat :=
  max step.delay_after default_delay

/-! ## The launch orchestrator (`commands.rs::launch_profile`) -/

/-- Embedding of `commands.rs::LaunchState`: the process-wide run state, two atomic
booleans. -/
structure LaunchState where
  cancel_flag : Bool
  is_running : Bool
  deriving Repr, DecidableEq

deriving instance DecidableEq for Except

/-- Which arm of the per-step `tokio::select!` race resolves first
(`commands.rs` lines 79–96): the `spawn_blocking` executor task joins with an
inner `Result` (`executor`), the executor task panics and the join yields an
error (`panicked` carries the panic's display text), the 50 ms-granularity
`cancel_wait` poller observes the cancel flag (`cancelObserved`), or the
15-second sleep elapses first (`timedOut`). -/
inductive RaceResult
  | executor (r : Except String Unit)
  | panicked (msg : String)
  | cancelObserved
  | timedOut
  deriving Repr, DecidableEq

/-- Oracle describing what the shared-state observations of one loop
iteration resolve to: the value the pre-step cancel check loads, the winning
arm of the execution race, and (as in `delayLoop`) the first inter-step-delay
check at which the cancel flag reads `true`, if any. -/
structure StepBehavior where
  preCancel : Bool
  race : RaceResult
  delayCancelAt : Option Nat
  deriving Repr, DecidableEq

/-- Terminal outcome of a `launch_profile` call, identifying which `return`
site of the Rust function was taken: the pre-claim
`Err("Launch already in progress")`, one of the three cancel returns, or the
fall-through completion. -/
inductive Outcome
  | completed
  | cancelled
  | alreadyRunning
  deriving Repr, DecidableEq

/-- Events emitted through `app.emit` by `commands.rs` and `scheduler.rs`
(the notification sink). -/
inductive Event
  | progress (step_name : String) (current total : Nat)
  | step_error (step_name : String) (error : String)
  | cancelled
  | complete
  | scheduled_launch (profile_name : String)
  deriving Repr, DecidableEq

/-- Result of the step loop of `launch_profile` (lines 56–129): the events
emitted, the delay increments actually slept (tagged with the index of the
step whose delay phase slept them), the outcome, and the value stored into
`state.is_running` at the taken `return` site. -/
structure LoopResult where
  events : List Event
  sleeps : List (Nat × List Nat)
  outcome : Outcome
  running : Bool
  deriving Repr, DecidableEq

/-- The `for (i, step) in steps.iter().enumerate()` loop of `launch_profile`
(lines 56–129), with the oracle `behav i` supplying the iteration's
observations.  Each `return` site records the `false` it stores into
`is_running`; the fall-through path emits `launch-complete` and stores
`false` likewise. -/
def launchLoop (behav : Nat → StepBehavior) (default_delay total : Nat) :
    Nat → List Step → LoopResult
  | _, [] => ⟨[.complete], [], .completed, false⟩
  | i, step :: rest =>
    let b := behav i
    if b.preCancel then ⟨[.cancelled], [], .cancelled, false⟩
    else
      let progressEv : Event := .progress step.name (i + 1) total
      match b.race with
      | .cancelObserved => ⟨[progressEv, .cancelled], [], .cancelled, false⟩
      | raceRes =>
        let launch_result : Except String Unit :=
          match raceRes with
          | .executor r => r
          | .panicked msg => .error ("Task panicked: " ++ msg)
          | .timedOut => .error "Step timed out after 15s"
          | .cancelObserved => .ok ()
        let errEvs : List Event :=
          match launch_result with
          | .error e => [.step_error step.name e]
          | .ok _ => []
        let d := delayLoop b.delayCancelAt (effectiveDelay step default_delay)
        if d.2 then
          ⟨progressEv :: errEvs ++ [.cancelled], [(i, d.1)], .cancelled, false⟩
        else
          let r := launchLoop behav default_delay total (i + 1) rest
          ⟨progressEv :: errEvs ++ r.events, (i, d.1) :: r.sleeps, r.outcome,
            r.running⟩

/-- The atomic claim (`commands.rs` lines 44–50):
`is_running.compare_exchange(false, true, SeqCst, SeqCst)`.  Returns whether
the exchange succeeded together with the resulting state. -/
def tryClaim (st : LaunchState) : Bool × LaunchState :=
  if st.is_running then (false, st)
  else (true, { st with is_running := true })

/-- Full result of one `launch_profile` call. -/
structure LaunchResult where
  state : LaunchState
  events : List Event
  sleeps : List (Nat × List Nat)
  ret : Except String Unit
  outcome : Outcome
  deriving Repr, DecidableEq

/-- Embedding of `commands.rs::launch_profile`: the claim, the `cancel_flag.store(false)`
(line 52), then the step loop.  The final `cancel_flag` field is its value
absent further concurrent `cancel_launch` calls (the run itself never writes
it after line 52). -/
def launch_profile (behav : Nat → StepBehavior) (steps : List Step)
    (default_delay : Nat) (st : LaunchState) : LaunchResult :=
  let c := tryClaim st
  if c.1 = false then
    ⟨st, [], [], .error "Launch already in progress", .alreadyRunning⟩
  else
    let st1 : LaunchState := { c.2 with cancel_flag := false }
    let r := launchLoop behav default_delay steps.length 0 steps
    ⟨{ st1 with is_running := r.running }, r.events, r.sleeps, .ok (),
      r.outcome⟩

/-- Embedding of `commands.rs::cancel_launch`: `cancel_flag.store(true)`, returns
`Ok(())`; a plain store, never blocking. -/
def cancel_launch (st : LaunchState) : LaunchState × Except String Unit :=
  ({ st with cancel_flag := true }, .ok ())

/-- A run of `n` sequential attempts at the atomic claim with no intervening release:
the linearisation of any set of concurrent `compare_exchange` calls on the
`is_running` cell.  Counts how many succeed. -/
def claimSuccesses (st : LaunchState) : Nat → Nat
  | 0 => 0
  | n + 1 =>
    let c := tryClaim st
    (if c.1 then 1 else 0) + claimSuccesses c.2 n

/-! ## The time-based trigger loop (`scheduler.rs::run_scheduler`) -/

/-- The trigger loop's memory across ticks: `last_triggered` (the
`HashSet<String>` of profile ids fired this minute, modelled as a list
queried via membership) and `last_minute` (the `"%H:%M"` string of the last
observed minute). -/
structure SchedState where
  last_triggered : List String
  last_minute : String
  deriving Repr, DecidableEq

/-- What one wake-up of the trigger loop observes: the formatted current
minute, the weekday (`num_days_from_sunday`), and the configuration read
fresh by `config::load_config()` on this tick. -/
structure TickInput where
  current_time : String
  current_day : Nat
  profiles : List Profile
  deriving Repr, DecidableEq

/-- One scheduled firing: the `scheduled-launch` event's profile name, the
profile id recorded in `last_triggered`, and the step list actually run
(`profile.steps.iter().filter(|s| s.enabled)`). -/
structure ScheduledRun where
  profile_id : String
  profile_name : String
  steps : List Step
  deriving Repr, DecidableEq

/-- The guard chain of `scheduler.rs` lines 27–39: the four `continue`s, in
source order (disabled schedule, time mismatch, non-empty day set missing
today, already fired this minute). -/
def shouldFire (fired : List String) (current_time : String)
    (current_day : Nat) (p : Profile) : Bool :=
  match p.schedule with
  | none => false
  | some s =>
    if !s.enabled then false
    else if s.time ≠ current_time then false
    else if !s.days.isEmpty && !s.days.contains current_day then false
    else if fired.contains p.id then false
    else true

/-- The `for profile in &cfg.profiles` body (`scheduler.rs` lines 26–59):
threads the fired set, collecting the runs launched this tick in order. -/
def processProfiles (fired : List String) (current_time : String)
    (current_day : Nat) : List Profile → List String × List ScheduledRun
  | [] => (fired, [])
  | p :: rest =>
    if shouldFire fired current_time current_day p then
      let r := processProfiles (p.id :: fired) current_time current_day rest
      (r.1, ⟨p.id, p.name, p.steps.filter (·.enabled)⟩ :: r.2)
    else processProfiles fired current_time current_day rest

/-- One iteration of the trigger loop after its 30-second sleep
(`scheduler.rs` lines 14–59): reset `last_triggered` if the minute changed,
then scan the freshly loaded profiles. -/
def schedTick (st : SchedState) (t : TickInput) :
    SchedState × List ScheduledRun :=
  let fired :=
    if t.current_time ≠ st.last_minute then [] else st.last_triggered
  let r := processProfiles fired t.current_time t.current_day t.profiles
  (⟨r.1, t.current_time⟩, r.2)

/-- Finitely many successive wake-ups of the (infinite) trigger loop. -/
def runTicks (st : SchedState) : List TickInput →
    SchedState × List ScheduledRun
  | [] => (st, [])
  | t :: ts =>
    let r := schedTick st t
    let rest := runTicks r.1 ts
    (rest.1, r.2 ++ rest.2)

/-- The per-step execution of a scheduled run (`scheduler.rs` lines 52–57):
each step's `launcher::launch_step` outcome (supplied by the oracle `exec`,
indexed by position) is logged on failure via `eprintln!` — modelled as a
list of (step name, error) log lines — and is always followed by
`thread::sleep(step.delay_after.max(500))`, unconditionally, with no select
race, no timeout and no cancel check. -/
def runScheduledSteps (exec : Nat → Except String Unit) :
    Nat → List Step → List (String × String) × List Nat
  | _, [] => ([], [])
  | i, step :: rest =>
    let logs : List (String × String) :=
      match exec i with
      | .error e => [(step.name, e)]
      | .ok _ => []
    let r := runScheduledSteps exec (i + 1) rest
    (logs ++ r.1, max step.delay_after 500 :: r.2)

/-! ## Statement-side vocabulary

These definitions render the spec's descriptions of observable behaviour
(event streams, failure messages, cancellation observations) so the theorems
can compare the embedded code against them. -/

/-- Spec-side: the per-step failure description for each losing arm of the
execution race — the executor's own error, the join error of a panicked
task, or the distinct timeout reason string; `none` when the step
succeeded (a cancel win produces no step failure at all). -/
def raceFailure : RaceResult → Option String
  | .executor (.ok _) => none
  | .executor (.error e) => some e
  | .panicked msg => some ("Task panicked: " ++ msg)
  | .timedOut => some "Step timed out after 15s"
  | .cancelObserved => none

/-- Spec-side: an iteration oracle under which the cancel signal is never
observed set for this step. -/
def uncancelledB (b : StepBehavior) : Prop :=
  b.preCancel = false ∧ b.race ≠ .cancelObserved ∧ b.delayCancelAt = none

instance (b : StepBehavior) : Decidable (uncancelledB b) := by
  unfold uncancelledB
  infer_instance

/-- Spec-side: the cancel signal is observed set during this iteration —
at the pre-step boundary check, by the race's cancel poller, or at one of
the delay loop's per-increment checks. -/
def observesCancel (b : StepBehavior) (delay : Nat) : Prop :=
  b.preCancel = true ∨ b.race = .cancelObserved ∨
    (delayLoop b.delayCancelAt delay).2 = true

instance (b : StepBehavior) (delay : Nat) : Decidable (observesCancel b delay) := by
  unfold observesCancel
  infer_instance

/-- Spec-side: the event stream of an uncancelled activation — per step, one
progress event (1-based index over the total) followed by exactly one
step-error event if and only if that step's race failed, and a single
terminal complete event. -/
def specEventsUncancelled (behav : Nat → StepBehavior) (total : Nat) :
    Nat → List Step → List Event
  | _, [] => [.complete]
  | i, step :: rest =>
    .progress step.name (i + 1) total ::
      ((raceFailure (behav i).race).toList.map
        (fun e => Event.step_error step.name e) ++
        specEventsUncancelled behav total (i + 1) rest)

/-- Spec-side: the sleep schedule of an uncancelled activation — every step's
delay phase runs in full, over the effective delay
`max(step.delay_after, default_delay)`. -/
def specSleepsUncancelled (default_delay : Nat) :
    Nat → List Step → List (Nat × List Nat)
  | _, [] => []
  | i, step :: rest =>
    (i, (delayLoop none (effectiveDelay step default_delay)).1) ::
      specSleepsUncancelled default_delay (i + 1) rest

/-- Spec-side: events a post-claim activation may emit before its terminal
event — progress and step-error only. -/
def isBodyEvent : Event → Bool
  | .progress _ _ _ => true
  | .step_error _ _ => true
  | _ => false

/-- Spec-side: how many of the runs fired a given profile id. -/
def fireCount (id : String) (runs : List ScheduledRun) : Nat :=
  runs.countP (fun r => r.profile_id == id)

/-! ## Lemmas about the delay loop -/

theorem delayLoop_zero (c : Option Nat) : delayLoop c 0 = ([], false) := rfl

theorem delayLoop_none_eq (d : Nat) (h : d ≠ 0) :
    delayLoop none d =
      (min d 100 :: (delayLoop none (d - min d 100)).1,
        (delayLoop none (d - min d 100)).2) := by
  rw [delayLoop_eq]
  simp [h]

theorem delayLoop_none_spec (d : Nat) :
    (delayLoop none d).2 = false ∧ (delayLoop none d).1.sum = d ∧
      ∀ x ∈ (delayLoop none d).1, 0 < x ∧ x ≤ 100 := by
  induction d using Nat.strong_induction_on with
  | _ d ih =>
    by_cases h : d = 0
    · subst h
      simp [delayLoop_zero]
    · obtain ⟨ih1, ih2, ih3⟩ := ih (d - min d 100) (by omega)
      rw [delayLoop_none_eq d h]
      refine ⟨ih1, ?_, ?_⟩
      · simp only [List.sum_cons, ih2]
        omega
      · intro x hx
        rcases List.mem_cons.mp hx with hx | hx
        · omega
        · exact ih3 x hx

theorem delayLoop_some_take (k d : Nat) :
    (delayLoop (some k) d).1 = ((delayLoop none d).1).take k := by
  induction d using Nat.strong_induction_on generalizing k with
  | _ d ih =>
    by_cases h : d = 0
    · subst h
      simp [delayLoop_zero]
    · by_cases hk : k = 0
      · subst hk
        rw [delayLoop_eq]
        simp [h]
      · obtain ⟨m, rfl⟩ : ∃ m, k = m + 1 := ⟨k - 1, by omega⟩
        rw [delayLoop_eq, delayLoop_none_eq d h]
        simp only [h, if_false, if_neg (by simp : ¬(some (m + 1) = some 0)),
          Option.map_some']
        simp only [List.take_succ_cons, Nat.add_sub_cancel]
        exact congrArg (min d 100 :: ·) (ih (d - min d 100) (by omega) m)

/-! ## Lemmas about the step loop -/

theorem launchLoop_uncancelled (behav : Nat → StepBehavior)
    (default_delay total : Nat) :
    ∀ (steps : List Step) (i : Nat),
      (∀ j, j < steps.length → uncancelledB (behav (i + j))) →
      launchLoop behav default_delay total i steps =
        ⟨specEventsUncancelled behav total i steps,
          specSleepsUncancelled default_delay i steps, .completed, false⟩ := by
  intro steps
  induction steps with
  | nil =>
    intro i _
    rfl
  | cons step rest ih =>
    intro i h
    have h0 : uncancelledB (behav i) := by simpa using h 0 (by simp)
    obtain ⟨h0pre, h0race, h0delay⟩ := h0
    have h' : ∀ j, j < rest.length → uncancelledB (behav (i + 1 + j)) := by
      intro j hj
      have := h (j + 1) (by simpa using Nat.succ_lt_succ hj)
      rwa [show i + (j + 1) = i + 1 + j by omega] at this
    have hrec := ih (i + 1) h'
    have hdl : (delayLoop none (effectiveDelay step default_delay)).2 = false :=
      (delayLoop_none_spec _).1
    cases hr : (behav i).race with
    | executor r =>
      cases r with
      | ok u =>
        simp [launchLoop, h0pre, hr, hdl, hrec, specEventsUncancelled,
          specSleepsUncancelled, raceFailure, h0delay]
      | error e =>
        simp [launchLoop, h0pre, hr, hdl, hrec, specEventsUncancelled,
          specSleepsUncancelled, raceFailure, h0delay]
    | panicked msg =>
      simp [launchLoop, h0pre, hr, hdl, hrec, specEventsUncancelled,
        specSleepsUncancelled, raceFailure, h0delay]
    | cancelObserved => exact absurd hr h0race
    | timedOut =>
      simp [launchLoop, h0pre, hr, hdl, hrec, specEventsUncancelled,
        specSleepsUncancelled, raceFailure, h0delay]

theorem launchLoop_spec (behav : Nat → StepBehavior)
    (default_delay total : Nat) :
    ∀ (steps : List Step) (i : Nat),
      (launchLoop behav default_delay total i steps).running = false ∧
      (((launchLoop behav default_delay total i steps).outcome = .completed ∧
          ∃ pre, (launchLoop behav default_delay total i steps).events =
              pre ++ [Event.complete] ∧ ∀ e ∈ pre, isBodyEvent e = true) ∨
        ((launchLoop behav default_delay total i steps).outcome = .cancelled ∧
          ∃ pre, (launchLoop behav default_delay total i steps).events =
              pre ++ [Event.cancelled] ∧ ∀ e ∈ pre, isBodyEvent e = true)) := by
  intro steps
  induction steps with
  | nil =>
    intro i
    exact ⟨rfl, .inl ⟨rfl, [], rfl, by simp⟩⟩
  | cons step rest ih =>
    intro i
    by_cases hp : (behav i).preCancel
    · refine ⟨?_, .inr ⟨?_, [], ?_, by simp⟩⟩ <;> simp [launchLoop, hp]
    · have key : ∀ launch_result : Except String Unit,
        ∀ errEvs : List Event,
        (∀ e ∈ errEvs, isBodyEvent e = true) →
        ∀ res : LoopResult,
        (res = if (delayLoop (behav i).delayCancelAt
            (effectiveDelay step default_delay)).2 then
          ⟨Event.progress step.name (i + 1) total :: errEvs ++
            [Event.cancelled],
            [(i, (delayLoop (behav i).delayCancelAt
              (effectiveDelay step default_delay)).1)], .cancelled, false⟩
        else
          ⟨Event.progress step.name (i + 1) total :: errEvs ++
            (launchLoop behav default_delay total (i + 1) rest).events,
            (i, (delayLoop (behav i).delayCancelAt
              (effectiveDelay step default_delay)).1) ::
              (launchLoop behav default_delay total (i + 1) rest).sleeps,
            (launchLoop behav default_delay total (i + 1) rest).outcome,
            (launchLoop behav default_delay total (i + 1) rest).running⟩) →
        res.running = false ∧
        ((res.outcome = .completed ∧
            ∃ pre, res.events = pre ++ [Event.complete] ∧
              ∀ e ∈ pre, isBodyEvent e = true) ∨
          (res.outcome = .cancelled ∧
            ∃ pre, res.events = pre ++ [Event.cancelled] ∧
              ∀ e ∈ pre, isBodyEvent e = true)) := by
        intro launch_result errEvs herr res hres
        by_cases hd : (delayLoop (behav i).delayCancelAt
            (effectiveDelay step default_delay)).2
        · rw [hres, if_pos hd]
          refine ⟨rfl, .inr ⟨rfl,
            Event.progress step.name (i + 1) total :: errEvs, ?_, ?_⟩⟩
          · simp
          · intro e he
            rcases List.mem_cons.mp he with rfl | he
            · rfl
            · exact herr e he
        · rw [hres, if_neg hd]
          obtain ⟨ihrun, ihcase⟩ := ih (i + 1)
          refine ⟨ihrun, ?_⟩
          rcases ihcase with ⟨ho, pre, hev, hpre⟩ | ⟨ho, pre, hev, hpre⟩
          · refine .inl ⟨ho,
              Event.progress step.name (i + 1) total :: errEvs ++ pre, ?_, ?_⟩
            · simp [hev]
            · intro e he
              rcases List.mem_cons.mp he with rfl | he
              · rfl
              · rcases List.mem_append.mp he with he | he
                · exact herr e he
                · exact hpre e he
          · refine .inr ⟨ho,
              Event.progress step.name (i + 1) total :: errEvs ++ pre, ?_, ?_⟩
            · simp [hev]
            · intro e he
              rcases List.mem_cons.mp he with rfl | he
              · rfl
              · rcases List.mem_append.mp he with he | he
                · exact herr e he
                · exact hpre e he
      cases hr : (behav i).race with
      | cancelObserved =>
        refine ⟨?_, .inr ⟨?_, [Event.progress step.name (i + 1) total],
          ?_, by simp [isBodyEvent]⟩⟩ <;> simp [launchLoop, hp, hr]
      | executor r =>
        cases r with
        | ok u =>
          refine key (.ok ()) [] (by simp) _ ?_
          simp [launchLoop, hp, hr]
        | error e =>
          refine key (.error e) [Event.step_error step.name e]
            (by simp [isBodyEvent]) _ ?_
          simp [launchLoop, hp, hr]
      | panicked msg =>
        refine key (.error ("Task panicked: " ++ msg))
          [Event.step_error step.name ("Task panicked: " ++ msg)]
          (by simp [isBodyEvent]) _ ?_
        simp [launchLoop, hp, hr]
      | timedOut =>
        refine key (.error "Step timed out after 15s")
          [Event.step_error step.name "Step timed out after 15s"]
          (by simp [isBodyEvent]) _ ?_
        simp [launchLoop, hp, hr]

theorem launchLoop_cancelObserved (behav : Nat → StepBehavior)
    (default_delay total : Nat) :
    ∀ (steps : List Step) (a i : Nat) (hi : i < steps.length),
      observesCancel (behav (a + i))
        (effectiveDelay (steps.get ⟨i, hi⟩) default_delay) →
      (launchLoop behav default_delay total a steps).outcome = .cancelled ∧
      (∀ n c t, Event.progress n c t ∈
          (launchLoop behav default_delay total a steps).events →
        c ≤ a + i + 1) ∧
      ∀ p ∈ (launchLoop behav default_delay total a steps).sleeps,
        p.1 ≤ a + i := by
  intro steps
  induction steps with
  | nil =>
    intro a i hi
    exact absurd hi (by simp)
  | cons step rest ih =>
    intro a i hi hobs
    by_cases hp : (behav a).preCancel
    · refine ⟨?_, ?_, ?_⟩ <;> simp [launchLoop, hp]
    · cases i with
      | zero =>
        have hobs0 : observesCancel (behav a)
            (effectiveDelay step default_delay) := by simpa using hobs
        cases hr : (behav a).race with
        | cancelObserved =>
          refine ⟨?_, ?_, ?_⟩ <;> (simp [launchLoop, hp, hr]; try (intros; omega))
        | executor r =>
          have hd : (delayLoop (behav a).delayCancelAt
              (effectiveDelay step default_delay)).2 = true := by
            rcases hobs0 with h | h | h
            · exact absurd h (by simp [hp])
            · exact absurd h (by simp [hr])
            · exact h
          cases r with
          | ok u =>
            refine ⟨?_, ?_, ?_⟩ <;>
              (simp [launchLoop, hp, hr, hd]; try (intros; omega))
          | error e =>
            refine ⟨?_, ?_, ?_⟩ <;>
              (simp [launchLoop, hp, hr, hd]; try (intros; omega))
        | panicked msg =>
          have hd : (delayLoop (behav a).delayCancelAt
              (effectiveDelay step default_delay)).2 = true := by
            rcases hobs0 with h | h | h
            · exact absurd h (by simp [hp])
            · exact absurd h (by simp [hr])
            · exact h
          refine ⟨?_, ?_, ?_⟩ <;>
            (simp [launchLoop, hp, hr, hd]; try (intros; omega))
        | timedOut =>
          have hd : (delayLoop (behav a).delayCancelAt
              (effectiveDelay step default_delay)).2 = true := by
            rcases hobs0 with h | h | h
            · exact absurd h (by simp [hp])
            · exact absurd h (by simp [hr])
            · exact h
          refine ⟨?_, ?_, ?_⟩ <;>
            (simp [launchLoop, hp, hr, hd]; try (intros; omega))
      | succ j =>
        have hj : j < rest.length := by simpa using Nat.lt_of_succ_lt_succ hi
        have hrec := ih (a + 1) j hj (by
          have : a + (j + 1) = a + 1 + j := by omega
          rw [← this]
          simpa using hobs)
        obtain ⟨ho, hprog, hsleep⟩ := hrec
        have key : ∀ errEvs : List Event,
            (∀ e ∈ errEvs, ∀ n c t, e ≠ Event.progress n c t) →
            ∀ res : LoopResult,
            (res = if (delayLoop (behav a).delayCancelAt
                (effectiveDelay step default_delay)).2 then
              ⟨Event.progress step.name (a + 1) total :: errEvs ++
                [Event.cancelled],
                [(a, (delayLoop (behav a).delayCancelAt
                  (effectiveDelay step default_delay)).1)], .cancelled, false⟩
            else
              ⟨Event.progress step.name (a + 1) total :: errEvs ++
                (launchLoop behav default_delay total (a + 1) rest).events,
                (a, (delayLoop (behav a).delayCancelAt
                  (effectiveDelay step default_delay)).1) ::
                  (launchLoop behav default_delay total (a + 1) rest).sleeps,
                (launchLoop behav default_delay total (a + 1) rest).outcome,
                (launchLoop behav default_delay total (a + 1) rest).running⟩) →
            res.outcome = .cancelled ∧
            (∀ n c t, Event.progress n c t ∈ res.events →
              c ≤ a + (j + 1) + 1) ∧
            ∀ p ∈ res.sleeps, p.1 ≤ a + (j + 1) := by
          intro errEvs herr res hres
          by_cases hd : (delayLoop (behav a).delayCancelAt
              (effectiveDelay step default_delay)).2
          · subst hres
            rw [if_pos hd]
            refine ⟨rfl, ?_, ?_⟩
            · intro n c t hmem
              rcases List.mem_cons.mp hmem with h1 | h1
              · obtain ⟨-, rfl, -⟩ := Event.progress.inj h1
                omega
              · rcases List.mem_append.mp h1 with h2 | h2
                · exact absurd rfl (herr _ h2 n c t)
                · exact absurd (List.mem_singleton.mp h2) (by simp)
            · intro p hp2
              rcases List.mem_singleton.mp hp2 with rfl
              simp
          · subst hres
            rw [if_neg hd]
            refine ⟨ho, ?_, ?_⟩
            · intro n c t hmem
              rcases List.mem_cons.mp hmem with h1 | h1
              · obtain ⟨-, rfl, -⟩ := Event.progress.inj h1
                omega
              · rcases List.mem_append.mp h1 with h2 | h2
                · exact absurd rfl (herr _ h2 n c t)
                · have := hprog n c t h2
                  omega
            · intro p hp2
              rcases List.mem_cons.mp hp2 with rfl | hp2
              · simp
              · have := hsleep p hp2
                omega
        cases hr : (behav a).race with
        | cancelObserved =>
          refine ⟨?_, ?_, ?_⟩ <;>
            (simp [launchLoop, hp, hr]; try (intros; omega))
        | executor r =>
          cases r with
          | ok u =>
            refine key [] (by simp) _ ?_
            simp [launchLoop, hp, hr]
          | error e =>
            refine key [Event.step_error step.name e] (by simp) _ ?_
            simp [launchLoop, hp, hr]
        | panicked msg =>
          refine key [Event.step_error step.name ("Task panicked: " ++ msg)]
            (by simp) _ ?_
          simp [launchLoop, hp, hr]
        | timedOut =>
          refine key [Event.step_error step.name "Step timed out after 15s"]
            (by simp) _ ?_
          simp [launchLoop, hp, hr]

/-! ## Claim theorems: launcher dispatch and simple orchestrator facts -/

/-- Claim C10: for every step whose type tag is not one of "app",
"terminal", "folder", "url", `launch_step` returns an error naming the
unknown type and invokes no launch action. -/
theorem claim_C10 (exec : StepKind → Step → Except String Unit) (step : Step)
    (h : step.step_type ∉ ["app", "terminal", "folder", "url"]) :
    launch_step exec step =
      (.error ("Unknown step type: " ++ step.step_type), none) := by
  unfold launch_step
  split
  · exact absurd (by simp [*]) h
  · exact absurd (by simp [*]) h
  · exact absurd (by simp [*]) h
  · exact absurd (by simp [*]) h
  · rfl

theorem claim_C10_witness :
    (("bogus" : String) ∉ ["app", "terminal", "folder", "url"]) ∧
      launch_step (fun _ _ => .ok ())
        ⟨"s1", "Mystery", "bogus", true, 0, "", none, none, none, none, none⟩ =
        (.error "Unknown step type: bogus", none) :=
  ⟨by decide,
    claim_C10 (fun _ _ => .ok ())
      ⟨"s1", "Mystery", "bogus", true, 0, "", none, none, none, none, none⟩
      (by decide)⟩

theorem claimSuccesses_busy (st : LaunchState) (h : st.is_running = true) :
    ∀ n, claimSuccesses st n = 0 := by
  intro n
  induction n with
  | zero => rfl
  | succ n ih =>
    simp only [claimSuccesses, tryClaim, h, if_true]
    simpa using ih

/-- Claim C1: with the in-progress flag already set, `launch_profile` fails
with the already-running error, emits no events, sleeps nothing and leaves
the state untouched; and any linearised sequence of concurrent
`compare_exchange` claims lets at most one caller through. -/
theorem claim_C1 :
    (∀ (behav : Nat → StepBehavior) (steps : List Step) (default_delay : Nat)
        (st : LaunchState), st.is_running = true →
      launch_profile behav steps default_delay st =
        ⟨st, [], [], .error "Launch already in progress", .alreadyRunning⟩) ∧
    ∀ (st : LaunchState) (n : Nat), claimSuccesses st n ≤ 1 := by
  constructor
  · intro behav steps default_delay st h
    simp [launch_profile, tryClaim, h]
  · intro st n
    induction n generalizing st with
    | zero => simp [claimSuccesses]
    | succ n ih =>
      by_cases h : st.is_running
      · simp only [claimSuccesses, tryClaim, h, if_true]
        simpa using ih st
      · simp only [claimSuccesses, tryClaim, h, if_false]
        have := claimSuccesses_busy { st with is_running := true } rfl n
        simp [this]

theorem claim_C1_witness :
    ((⟨false, true⟩ : LaunchState).is_running = true ∧
      launch_profile (fun _ => ⟨false, .executor (.ok ()), none⟩)
        [⟨"s1", "A", "app", true, 0, "", none, none, none, none, none⟩] 250
        ⟨false, true⟩ =
        ⟨⟨false, true⟩, [], [], .error "Launch already in progress",
          .alreadyRunning⟩) ∧
    claimSuccesses ⟨false, false⟩ 5 ≤ 1 :=
  ⟨⟨rfl, claim_C1.1 (fun _ => ⟨false, .executor (.ok ()), none⟩)
      [⟨"s1", "A", "app", true, 0, "", none, none, none, none, none⟩] 250
      ⟨false, true⟩ rfl⟩,
    claim_C1.2 ⟨false, false⟩ 5⟩

/-- Claim C8: `cancel_launch` sets the cancel flag and returns `Ok(())`, is
idempotent, touches nothing but the cancel flag, and — because a
successfully claimed `launch_profile` clears the cancel flag first —
a cancel requested while no activation is running has no effect on the
next activation. -/
theorem claim_C8 :
    (∀ st : LaunchState,
      (cancel_launch st).1.cancel_flag = true ∧ (cancel_launch st).2 = .ok ()) ∧
    (∀ st : LaunchState, cancel_launch (cancel_launch st).1 = cancel_launch st) ∧
    (∀ st : LaunchState, (cancel_launch st).1.is_running = st.is_running) ∧
    ∀ (behav : Nat → StepBehavior) (steps : List Step) (default_delay : Nat)
      (st : LaunchState), st.is_running = false →
      launch_profile behav steps default_delay ((cancel_launch st).1) =
        launch_profile behav steps default_delay st := by
  refine ⟨fun st => ⟨rfl, rfl⟩, fun st => rfl, fun st => rfl, ?_⟩
  intro behav steps default_delay st h
  simp [launch_profile, tryClaim, cancel_launch, h]

theorem claim_C8_witness :
    ((cancel_launch ⟨false, false⟩).1.cancel_flag = true ∧
      (cancel_launch ⟨false, false⟩).2 = .ok ()) ∧
    cancel_launch (cancel_launch ⟨false, false⟩).1 =
      cancel_launch ⟨false, false⟩ ∧
    ((⟨false, false⟩ : LaunchState).is_running = false ∧
      launch_profile (fun _ => ⟨false, .executor (.ok ()), none⟩) []
        0 ((cancel_launch ⟨false, false⟩).1) =
        launch_profile (fun _ => ⟨false, .executor (.ok ()), none⟩) []
          0 ⟨false, false⟩) :=
  ⟨claim_C8.1 ⟨false, false⟩, claim_C8.2.1 ⟨false, false⟩,
    rfl, claim_C8.2.2.2 (fun _ => ⟨false, .executor (.ok ()), none⟩) [] 0
      ⟨false, false⟩ rfl⟩

/-- Claim C9: activating an empty step list with the run slot free completes
immediately — the result is `Ok(())` with outcome `completed`, exactly the
single complete event, no sleeps, and the run slot released. -/
theorem claim_C9 (behav : Nat → StepBehavior) (default_delay : Nat)
    (st : LaunchState) (h : st.is_running = false) :
    launch_profile behav [] default_delay st =
      ⟨⟨false, false⟩, [Event.complete], [], .ok (), .completed⟩ := by
  simp [launch_profile, tryClaim, h, launchLoop]

/-! ## Witness fixtures: concrete steps, behaviours and states -/

/-- A concrete app step with a 150 ms delay-after. -/
def stepAw : Step := ⟨"a", "A", "app", true, 150, "", none, none, none, none, none⟩

/-- A concrete url step with no delay-after. -/
def stepBw : Step :=
  ⟨"b", "B", "url", true, 0, "", some "https://example.org", none, none, none,
    none⟩

/-- A behaviour oracle under which every step's executor succeeds and no
cancel is ever observed. -/
def beh_ok : Nat → StepBehavior := fun _ => ⟨false, .executor (.ok ()), none⟩

/-- A behaviour oracle under which step 0's executor fails with "boom" and
every later step succeeds; no cancel is ever observed. -/
def behABw : Nat → StepBehavior := fun j =>
  if j = 0 then ⟨false, .executor (.error "boom"), none⟩
  else ⟨false, .executor (.ok ()), none⟩

/-- A behaviour oracle under which the cancel flag is observed set at the
second 100 ms check of step 0's delay phase. -/
def behCancelW : Nat → StepBehavior := fun j =>
  if j = 0 then ⟨false, .executor (.ok ()), some 1⟩
  else ⟨false, .executor (.ok ()), none⟩

/-- The startup run state: nothing running, no cancel requested. -/
def st0 : LaunchState := ⟨false, false⟩

/-! ## Claim theorems: the orchestrator loop -/

/-- Claim C2: every call that passes the claim returns `Ok(())` (no fault
escapes), terminates with outcome completed or cancelled accompanied by
exactly the corresponding terminal event after only progress/step-error
events, releases the run slot on every exit path, and leaves the state such
that a subsequent claim — and a subsequent `launch_profile` call — succeeds. -/
theorem claim_C2 (behav : Nat → StepBehavior) (steps : List Step)
    (default_delay : Nat) (st : LaunchState) (h : st.is_running = false) :
    (launch_profile behav steps default_delay st).ret = .ok () ∧
    (launch_profile behav steps default_delay st).state.is_running = false ∧
    (tryClaim (launch_profile behav steps default_delay st).state).1 = true ∧
    (((launch_profile behav steps default_delay st).outcome = .completed ∧
        ∃ pre, (launch_profile behav steps default_delay st).events =
            pre ++ [Event.complete] ∧ ∀ e ∈ pre, isBodyEvent e = true) ∨
      ((launch_profile behav steps default_delay st).outcome = .cancelled ∧
        ∃ pre, (launch_profile behav steps default_delay st).events =
            pre ++ [Event.cancelled] ∧ ∀ e ∈ pre, isBodyEvent e = true)) ∧
    ∀ (behav2 : Nat → StepBehavior) (steps2 : List Step) (dd2 : Nat),
      (launch_profile behav2 steps2 dd2
          (launch_profile behav steps default_delay st).state).outcome ≠
        .alreadyRunning := by
  obtain ⟨hrun, hcase⟩ :=
    launchLoop_spec behav default_delay steps.length steps 0
  have hlp : launch_profile behav steps default_delay st =
      ⟨⟨false, false⟩,
        (launchLoop behav default_delay steps.length 0 steps).events,
        (launchLoop behav default_delay steps.length 0 steps).sleeps, .ok (),
        (launchLoop behav default_delay steps.length 0 steps).outcome⟩ := by
    simp [launch_profile, tryClaim, h, hrun]
  rw [hlp]
  refine ⟨rfl, rfl, rfl, hcase, ?_⟩
  intro behav2 steps2 dd2
  obtain ⟨-, hcase2⟩ := launchLoop_spec behav2 dd2 steps2.length steps2 0
  have : (launch_profile behav2 steps2 dd2 (⟨false, false⟩ : LaunchState)).outcome =
      (launchLoop behav2 dd2 steps2.length 0 steps2).outcome := by
    simp [launch_profile, tryClaim]
  rw [this]
  rcases hcase2 with ⟨ho, -⟩ | ⟨ho, -⟩ <;> simp [ho]

theorem claim_C2_witness :
    (st0.is_running = false) ∧
    ((launch_profile behABw [stepAw, stepBw] 0 st0).ret = .ok () ∧
      (launch_profile behABw [stepAw, stepBw] 0 st0).state.is_running = false ∧
      (tryClaim (launch_profile behABw [stepAw, stepBw] 0 st0).state).1 = true ∧
      (((launch_profile behABw [stepAw, stepBw] 0 st0).outcome = .completed ∧
          ∃ pre, (launch_profile behABw [stepAw, stepBw] 0 st0).events =
              pre ++ [Event.complete] ∧ ∀ e ∈ pre, isBodyEvent e = true) ∨
        ((launch_profile behABw [stepAw, stepBw] 0 st0).outcome = .cancelled ∧
          ∃ pre, (launch_profile behABw [stepAw, stepBw] 0 st0).events =
              pre ++ [Event.cancelled] ∧ ∀ e ∈ pre, isBodyEvent e = true)) ∧
      ∀ (behav2 : Nat → StepBehavior) (steps2 : List Step) (dd2 : Nat),
        (launch_profile behav2 steps2 dd2
            (launch_profile behABw [stepAw, stepBw] 0 st0).state).outcome ≠
          .alreadyRunning) :=
  ⟨rfl, claim_C2 behABw [stepAw, stepBw] 0 st0 rfl⟩

/-- Claim C3: in an uncancelled activation every per-step failure — executor
error, task panic, or the 15-second timeout — is non-fatal: the event stream
is exactly one progress event per step, one step-error event (with the step
name and the failure description) for precisely the failing steps, and a
terminal complete event; every step's delay phase runs. -/
theorem claim_C3 (behav : Nat → StepBehavior) (steps : List Step)
    (default_delay : Nat) (st : LaunchState) (hst : st.is_running = false)
    (hunc : ∀ j, j < steps.length → uncancelledB (behav j)) :
    (launch_profile behav steps default_delay st).outcome = .completed ∧
    (launch_profile behav steps default_delay st).events =
      specEventsUncancelled behav steps.length 0 steps ∧
    (launch_profile behav steps default_delay st).sleeps =
      specSleepsUncancelled default_delay 0 steps := by
  have hloop := launchLoop_uncancelled behav default_delay steps.length steps 0
    (by simpa using hunc)
  simp [launch_profile, tryClaim, hst, hloop]

theorem claim_C3_witness :
    (st0.is_running = false ∧
      (∀ j, j < ([stepAw, stepBw] : List Step).length →
        uncancelledB (behABw j)) ∧
      (launch_profile behABw [stepAw, stepBw] 500 st0).outcome = .completed ∧
      (launch_profile behABw [stepAw, stepBw] 500 st0).events =
        specEventsUncancelled behABw 2 0 [stepAw, stepBw]) ∧
    (launch_profile behABw [stepAw, stepBw] 500 st0).events =
      [Event.progress "A" 1 2, Event.step_error "A" "boom",
        Event.progress "B" 2 2, Event.complete] := by
  have h := claim_C3 behABw [stepAw, stepBw] 500 st0 rfl (by decide)
  exact ⟨⟨rfl, by decide, h.1, h.2.1⟩, by decide⟩

/-- Claim C4: if the cancel signal is observed set at the boundary before
step `i`, by step `i`'s race poller, or at any increment of step `i`'s delay
phase, the activation ends with outcome cancelled, a terminal cancelled
event, a released run slot, no progress events beyond step `i`, and no delay
increments of any later step. -/
theorem claim_C4 (behav : Nat → StepBehavior) (steps : List Step)
    (default_delay : Nat) (st : LaunchState) (i : Nat)
    (hst : st.is_running = false) (hi : i < steps.length)
    (hobs : observesCancel (behav i)
      (effectiveDelay (steps.get ⟨i, hi⟩) default_delay)) :
    (launch_profile behav steps default_delay st).outcome = .cancelled ∧
    (launch_profile behav steps default_delay st).ret = .ok () ∧
    (launch_profile behav steps default_delay st).state.is_running = false ∧
    (∃ pre, (launch_profile behav steps default_delay st).events =
      pre ++ [Event.cancelled]) ∧
    (∀ n c t, Event.progress n c t ∈
        (launch_profile behav steps default_delay st).events → c ≤ i + 1) ∧
    ∀ p ∈ (launch_profile behav steps default_delay st).sleeps, p.1 ≤ i := by
  obtain ⟨hrun, hcase⟩ :=
    launchLoop_spec behav default_delay steps.length steps 0
  obtain ⟨ho, hprog, hsleep⟩ :=
    launchLoop_cancelObserved behav default_delay steps.length steps 0 i hi
      (by simpa using hobs)
  have hlp : launch_profile behav steps default_delay st =
      ⟨⟨false, false⟩,
        (launchLoop behav default_delay steps.length 0 steps).events,
        (launchLoop behav default_delay steps.length 0 steps).sleeps, .ok (),
        (launchLoop behav default_delay steps.length 0 steps).outcome⟩ := by
    simp [launch_profile, tryClaim, hst, hrun]
  rw [hlp]
  refine ⟨ho, rfl, rfl, ?_, ?_, ?_⟩
  · rcases hcase with ⟨ho2, -⟩ | ⟨-, pre, hev, -⟩
    · rw [ho] at ho2
      cases ho2
    · exact ⟨pre, hev⟩
  · intro n c t hmem
    have := hprog n c t hmem
    omega
  · intro p hp
    have := hsleep p hp
    omega

theorem claim_C4_witness :
    (st0.is_running = false ∧ (0 : Nat) < ([stepAw, stepBw] : List Step).length ∧
      observesCancel (behCancelW 0) (effectiveDelay stepAw 0) ∧
      (launch_profile behCancelW [stepAw, stepBw] 0 st0).outcome =
        .cancelled ∧
      (∀ n c t, Event.progress n c t ∈
          (launch_profile behCancelW [stepAw, stepBw] 0 st0).events →
        c ≤ 0 + 1) ∧
      ∀ p ∈ (launch_profile behCancelW [stepAw, stepBw] 0 st0).sleeps,
        p.1 ≤ 0) ∧
    (launch_profile behCancelW [stepAw, stepBw] 0 st0).events =
      [Event.progress "A" 1 2, Event.cancelled] ∧
    (launch_profile behCancelW [stepAw, stepBw] 0 st0).sleeps = [(0, [100])] := by
  have h := claim_C4 behCancelW [stepAw, stepBw] 0 st0 0 rfl (by decide)
    (by decide)
  exact ⟨⟨rfl, by decide, by decide, h.1, h.2.2.2.2.1, h.2.2.2.2.2⟩,
    by decide, by decide⟩

/-- Claim C7: the inter-step delay is the effective delay
`max(step.delay_after, default_delay)`, slept as increments that sum to
exactly that value, each positive and at most 100 ms; a cancel observed at
the k-th check truncates the increments to the first k (the flag is
re-checked before every increment); and an uncancelled activation sleeps
precisely this schedule for every step. -/
theorem claim_C7 :
    (∀ (step : Step) (default_delay : Nat),
      effectiveDelay step default_delay = max step.delay_after default_delay) ∧
    (∀ d : Nat, ((delayLoop none d).1).sum = d) ∧
    (∀ d x : Nat, x ∈ (delayLoop none d).1 → 0 < x ∧ x ≤ 100) ∧
    (∀ k d : Nat, (delayLoop (some k) d).1 = ((delayLoop none d).1).take k) ∧
    ∀ (behav : Nat → StepBehavior) (steps : List Step) (default_delay : Nat)
      (st : LaunchState), st.is_running = false →
      (∀ j, j < steps.length → uncancelledB (behav j)) →
      (launch_profile behav steps default_delay st).sleeps =
        specSleepsUncancelled default_delay 0 steps := by
  refine ⟨fun _ _ => rfl, fun d => (delayLoop_none_spec d).2.1,
    fun d x hx => (delayLoop_none_spec d).2.2 x hx,
    fun k d => delayLoop_some_take k d, ?_⟩
  intro behav steps default_delay st hst hunc
  have hloop := launchLoop_uncancelled behav default_delay steps.length steps 0
    (by simpa using hunc)
  simp [launch_profile, tryClaim, hst, hloop]

theorem claim_C7_witness :
    ((delayLoop none 250).1.sum = 250 ∧
      (delayLoop (some 1) 250).1 = ((delayLoop none 250).1).take 1) ∧
    (st0.is_running = false ∧
      (∀ j, j < ([stepAw, stepBw] : List Step).length →
        uncancelledB (beh_ok j)) ∧
      (launch_profile beh_ok [stepAw, stepBw] 120 st0).sleeps =
        specSleepsUncancelled 120 0 [stepAw, stepBw]) ∧
    (launch_profile beh_ok [stepAw, stepBw] 120 st0).sleeps =
      [(0, [100, 50]), (1, [100, 20])] := by
  refine ⟨⟨claim_C7.2.1 250, claim_C7.2.2.2.1 1 250⟩,
    ⟨rfl, by decide, claim_C7.2.2.2.2 beh_ok [stepAw, stepBw] 120 st0 rfl
      (by decide)⟩, by decide⟩

theorem claim_C9_witness :
    ((⟨true, false⟩ : LaunchState).is_running = false ∧
      launch_profile (fun _ => ⟨false, .executor (.ok ()), none⟩) [] 500
        ⟨true, false⟩ =
        ⟨⟨false, false⟩, [Event.complete], [], .ok (), .completed⟩) :=
  ⟨rfl, claim_C9 (fun _ => ⟨false, .executor (.ok ()), none⟩) 500
    ⟨true, false⟩ rfl⟩

/-! ## Lemmas about the trigger loop -/

theorem shouldFire_iff (fired : List String) (ct : String) (cd : Nat)
    (p : Profile) :
    shouldFire fired ct cd p = true ↔
      ∃ s, p.schedule = some s ∧ s.enabled = true ∧ s.time = ct ∧
        (s.days = [] ∨ cd ∈ s.days) ∧ p.id ∉ fired := by
  unfold shouldFire
  cases hs : p.schedule with
  | none => simp
  | some s =>
    by_cases h1 : s.enabled <;> by_cases h2 : s.time = ct <;>
      by_cases h4 : p.id ∈ fired <;> by_cases h3 : s.days = [] <;>
        by_cases h5 : cd ∈ s.days <;>
          simp [h1, h2, h3, h4, h5, List.elem_iff, List.isEmpty_iff]

theorem processProfiles_count (ct : String) (cd : Nat) (id : String) :
    ∀ (profiles : List Profile) (fired : List String),
      (id ∈ fired → fireCount id (processProfiles fired ct cd profiles).2 = 0) ∧
      fireCount id (processProfiles fired ct cd profiles).2 ≤ 1 ∧
      (id ∈ (processProfiles fired ct cd profiles).1 ↔
        1 ≤ fireCount id (processProfiles fired ct cd profiles).2 ∨
          id ∈ fired) := by
  intro profiles
  induction profiles with
  | nil =>
    intro fired
    exact ⟨fun _ => rfl, by simp [fireCount, processProfiles],
      by simp [fireCount, processProfiles]⟩
  | cons p rest ih =>
    intro fired
    by_cases hf : shouldFire fired ct cd p
    · have hnot : p.id ∉ fired := by
        obtain ⟨s, -, -, -, -, hn⟩ := (shouldFire_iff fired ct cd p).mp hf
        exact hn
      obtain ⟨ih0, ih1, ih2⟩ := ih (p.id :: fired)
      simp only [processProfiles, hf, if_true]
      by_cases hid : p.id = id
      · subst hid
        have hzero : fireCount p.id
            (processProfiles (p.id :: fired) ct cd rest).2 = 0 :=
          ih0 (List.mem_cons_self _ _)
        simp only [fireCount] at hzero
        refine ⟨fun hmem => absurd hmem hnot, ?_, ?_⟩
        · simp only [fireCount, List.countP_cons, beq_self_eq_true, if_true,
            hzero]
          omega
        · rw [ih2]
          simp only [fireCount, List.countP_cons, beq_self_eq_true, if_true,
            hzero, List.mem_cons]
          simp
      · obtain rfl | hne : p.id = id ∨ p.id ≠ id := em _
        · exact absurd rfl hid
        · refine ⟨?_, ?_, ?_⟩
          · intro hmem
            have := ih0 (List.mem_cons_of_mem _ hmem)
            simp only [fireCount, List.countP_cons] at this ⊢
            simp only [beq_iff_eq, hne, if_false]
            omega
          · simp only [fireCount, List.countP_cons, beq_iff_eq, hne,
              if_false] at ih1 ⊢
            simpa [fireCount] using ih1
          · rw [ih2]
            simp only [fireCount, List.countP_cons, beq_iff_eq, hne, if_false]
            constructor
            · rintro (hc | hmem)
              · exact .inl (by simpa [fireCount] using hc)
              · rcases List.mem_cons.mp hmem with rfl | hmem
                · exact absurd rfl hne
                · exact .inr hmem
            · rintro (hc | hmem)
              · exact .inl (by simpa [fireCount] using hc)
              · exact .inr (List.mem_cons_of_mem _ hmem)
    · simp only [processProfiles, hf, if_false]
      exact ih fired

theorem runTicks_atMostOnce (m id : String) :
    ∀ (ts : List TickInput) (st : SchedState),
      (∀ t ∈ ts, t.current_time = m) →
      fireCount id (runTicks st ts).2 +
        (if st.last_minute = m ∧ id ∈ st.last_triggered then 1 else 0) ≤ 1 := by
  intro ts
  induction ts with
  | nil =>
    intro st _
    simp only [runTicks, fireCount, List.countP_nil]
    split <;> omega
  | cons t ts ih =>
    intro st h
    have htm : t.current_time = m := h t (by simp)
    have hrest : ∀ u ∈ ts, u.current_time = m := fun u hu => h u (by simp [hu])
    have hih := ih (schedTick st t).1 hrest
    by_cases hmin : t.current_time = st.last_minute
    · have hf0 : (if t.current_time ≠ st.last_minute then []
          else st.last_triggered) = st.last_triggered :=
        if_neg (not_not_intro hmin)
      have htick : schedTick st t =
          (⟨(processProfiles st.last_triggered t.current_time t.current_day
              t.profiles).1, t.current_time⟩,
            (processProfiles st.last_triggered t.current_time t.current_day
              t.profiles).2) := by
        simp only [schedTick, hf0]
      obtain ⟨pc0, pc1, pc2⟩ := processProfiles_count t.current_time
        t.current_day id t.profiles st.last_triggered
      rw [htick] at hih
      simp only [runTicks, htick, fireCount, List.countP_append] at hih ⊢
      simp only [fireCount] at pc0 pc1
      by_cases hmem : id ∈ st.last_triggered
      · have hc0 := pc0 hmem
        have hout : id ∈ (processProfiles st.last_triggered t.current_time
            t.current_day t.profiles).1 := pc2.mpr (.inr hmem)
        rw [if_pos ⟨htm, hout⟩] at hih
        rw [if_pos ⟨hmin.symm.trans htm, hmem⟩]
        omega
      · rw [if_neg (fun hcon => hmem hcon.2)]
        by_cases hout : id ∈ (processProfiles st.last_triggered t.current_time
            t.current_day t.profiles).1
        · rw [if_pos ⟨htm, hout⟩] at hih
          omega
        · have hc0 : List.countP (fun r => r.profile_id == id)
              (processProfiles st.last_triggered t.current_time t.current_day
                t.profiles).2 = 0 := by
            rcases Nat.eq_zero_or_pos (List.countP (fun r => r.profile_id == id)
              (processProfiles st.last_triggered t.current_time t.current_day
                t.profiles).2) with h0 | h0
            · exact h0
            · exact absurd (pc2.mpr (.inl (by simpa [fireCount] using h0)))
                hout
          rw [if_neg (fun hcon => hout hcon.2)] at hih
          omega
    · have hf0 : (if t.current_time ≠ st.last_minute then []
          else st.last_triggered) = [] := if_pos hmin
      have htick : schedTick st t =
          (⟨(processProfiles [] t.current_time t.current_day
              t.profiles).1, t.current_time⟩,
            (processProfiles [] t.current_time t.current_day
              t.profiles).2) := by
        simp only [schedTick, hf0]
      obtain ⟨pc0, pc1, pc2⟩ := processProfiles_count t.current_time
        t.current_day id t.profiles []
      rw [htick] at hih
      simp only [runTicks, htick, fireCount, List.countP_append] at hih ⊢
      simp only [fireCount] at pc1
      have hlm : ¬(st.last_minute = m ∧ id ∈ st.last_triggered) := by
        intro hcon
        exact hmin (htm.trans hcon.1.symm)
      rw [if_neg hlm]
      by_cases hout : id ∈ (processProfiles [] t.current_time t.current_day
          t.profiles).1
      · rw [if_pos ⟨htm, hout⟩] at hih
        omega
      · have hc0 : List.countP (fun r => r.profile_id == id)
            (processProfiles [] t.current_time t.current_day
              t.profiles).2 = 0 := by
          rcases Nat.eq_zero_or_pos (List.countP (fun r => r.profile_id == id)
            (processProfiles [] t.current_time t.current_day
              t.profiles).2) with h0 | h0
          · exact h0
          · exact absurd (pc2.mpr (.inl (by simpa [fireCount] using h0))) hout
        rw [if_neg (fun hcon => hout hcon.2)] at hih
        omega

theorem processProfiles_runs (ct : String) (cd : Nat) :
    ∀ (profiles : List Profile) (fired : List String) (r : ScheduledRun),
      r ∈ (processProfiles fired ct cd profiles).2 →
      ∃ p, p ∈ profiles ∧ r.profile_id = p.id ∧ r.profile_name = p.name ∧
        r.steps = p.steps.filter (·.enabled) := by
  intro profiles
  induction profiles with
  | nil =>
    intro fired r hr
    exact absurd hr (by simp [processProfiles])
  | cons p rest ih =>
    intro fired r hr
    by_cases hf : shouldFire fired ct cd p
    · simp only [processProfiles, hf, if_true] at hr
      rcases List.mem_cons.mp hr with rfl | hr
      · exact ⟨p, by simp, rfl, rfl, rfl⟩
      · obtain ⟨q, hq, h1, h2, h3⟩ := ih (p.id :: fired) r hr
        exact ⟨q, List.mem_cons_of_mem _ hq, h1, h2, h3⟩
    · simp only [processProfiles, hf, if_false] at hr
      obtain ⟨q, hq, h1, h2, h3⟩ := ih fired r hr
      exact ⟨q, List.mem_cons_of_mem _ hq, h1, h2, h3⟩

theorem runScheduledSteps_spec (exec : Nat → Except String Unit) :
    ∀ (steps : List Step) (i : Nat),
      (runScheduledSteps exec i steps).2 =
        steps.map (fun s => max s.delay_after 500) ∧
      (runScheduledSteps exec i steps).1 =
        (List.enumFrom i steps).filterMap (fun q =>
          match exec q.1 with
          | .error e => some (q.2.name, e)
          | .ok _ => none) := by
  intro steps
  induction steps with
  | nil =>
    intro i
    exact ⟨rfl, rfl⟩
  | cons s rest ih =>
    intro i
    obtain ⟨ih1, ih2⟩ := ih (i + 1)
    cases he : exec i with
    | ok u =>
      simp [runScheduledSteps, List.enumFrom, List.filterMap_cons, he, ih1,
        ih2]
    | error e =>
      simp [runScheduledSteps, List.enumFrom, List.filterMap_cons, he, ih1,
        ih2]

/-! ## Claim theorems: the trigger loop -/

/-- Claim C5: a profile fires on a tick iff its schedule is enabled, its
time equals the current minute, its day set is empty or contains today, and
its id is not in the fired-this-minute set; the fired set is cleared exactly
when the minute changes (kept otherwise); over any run of ticks within one
minute every profile id fires at most once; and an empty day set never
blocks a firing on any weekday. -/
theorem claim_C5 :
    (∀ (fired : List String) (ct : String) (cd : Nat) (p : Profile),
      shouldFire fired ct cd p = true ↔
        ∃ s, p.schedule = some s ∧ s.enabled = true ∧ s.time = ct ∧
          (s.days = [] ∨ cd ∈ s.days) ∧ p.id ∉ fired) ∧
    (∀ (st : SchedState) (t : TickInput), t.current_time ≠ st.last_minute →
      schedTick st t =
        (⟨(processProfiles [] t.current_time t.current_day t.profiles).1,
            t.current_time⟩,
          (processProfiles [] t.current_time t.current_day t.profiles).2)) ∧
    (∀ (st : SchedState) (t : TickInput), t.current_time = st.last_minute →
      schedTick st t =
        (⟨(processProfiles st.last_triggered t.current_time t.current_day
              t.profiles).1, t.current_time⟩,
          (processProfiles st.last_triggered t.current_time t.current_day
            t.profiles).2)) ∧
    (∀ (m id : String) (ts : List TickInput) (st : SchedState),
      (∀ t ∈ ts, t.current_time = m) →
      fireCount id (runTicks st ts).2 ≤ 1) ∧
    (∀ (fired : List String) (ct : String) (cd cd' : Nat) (p : Profile)
        (s : Schedule), p.schedule = some s → s.days = [] →
      shouldFire fired ct cd p = shouldFire fired ct cd' p) := by
  refine ⟨shouldFire_iff, ?_, ?_, ?_, ?_⟩
  · intro st t hne
    simp only [schedTick, if_pos hne]
  · intro st t heq
    simp only [schedTick, if_neg (not_not_intro heq)]
  · intro m id ts st h
    have := runTicks_atMostOnce m id ts st h
    omega
  · intro fired ct cd cd' p s hs hdays
    cases hb : shouldFire fired ct cd p <;>
      cases hb2 : shouldFire fired ct cd' p
    · rfl
    · obtain ⟨s2, hs2, he, ht2, -, hn⟩ := (shouldFire_iff fired ct cd' p).mp hb2
      rw [hs] at hs2
      injection hs2 with hs2
      subst hs2
      have : shouldFire fired ct cd p = true :=
        (shouldFire_iff fired ct cd p).mpr ⟨s, hs, he, ht2, .inl hdays, hn⟩
      rw [hb] at this
      cases this
    · obtain ⟨s2, hs2, he, ht2, -, hn⟩ := (shouldFire_iff fired ct cd p).mp hb
      rw [hs] at hs2
      injection hs2 with hs2
      subst hs2
      have : shouldFire fired ct cd' p = true :=
        (shouldFire_iff fired ct cd' p).mpr ⟨s, hs, he, ht2, .inl hdays, hn⟩
      rw [hb2] at this
      cases this
    · rfl

/-- A concrete enabled schedule: 09:00, empty day set. -/
def schedW : Schedule := ⟨true, "09:00", []⟩

/-- A concrete profile carrying `schedW`. -/
def profW : Profile := ⟨"p1", "Work", "", [stepAw], some schedW⟩

/-- A concrete tick at 09:00 on a Tuesday seeing `profW`. -/
def tickW : TickInput := ⟨"09:00", 2, [profW]⟩

theorem claim_C5_witness :
    (shouldFire [] "09:00" 2 profW = true ↔
      ∃ s, profW.schedule = some s ∧ s.enabled = true ∧ s.time = "09:00" ∧
        (s.days = [] ∨ 2 ∈ s.days) ∧ profW.id ∉ ([] : List String)) ∧
    ((∀ t ∈ [tickW, tickW], t.current_time = "09:00") ∧
      fireCount "p1" (runTicks ⟨[], ""⟩ [tickW, tickW]).2 ≤ 1) ∧
    fireCount "p1" (runTicks ⟨[], ""⟩ [tickW, tickW]).2 = 1 :=
  ⟨claim_C5.1 [] "09:00" 2 profW,
    ⟨by decide, claim_C5.2.2.2.1 "09:00" "p1" [tickW, tickW] ⟨[], ""⟩
      (by decide)⟩, by decide⟩

/-- Claim C6: a fired scheduled run executes exactly the profile's enabled
steps in list order; every step runs (and sleeps `max(delay_after, 500)`
afterwards) regardless of any failures, whose logs carry the step name and
error; the scheduled path consults no cancel signal and races no timeout —
its per-step outcome is exactly the executor's result. -/
theorem claim_C6 :
    (∀ (st : SchedState) (t : TickInput) (r : ScheduledRun),
      r ∈ (schedTick st t).2 →
      ∃ p, p ∈ t.profiles ∧ r.profile_id = p.id ∧ r.profile_name = p.name ∧
        r.steps = p.steps.filter (·.enabled)) ∧
    (∀ (exec : Nat → Except String Unit) (i : Nat) (steps : List Step),
      (runScheduledSteps exec i steps).2 =
        steps.map (fun s => max s.delay_after 500)) ∧
    (∀ (exec : Nat → Except String Unit) (i : Nat) (steps : List Step),
      (runScheduledSteps exec i steps).1 =
        (List.enumFrom i steps).filterMap (fun q =>
          match exec q.1 with
          | .error e => some (q.2.name, e)
          | .ok _ => none)) := by
  refine ⟨?_, fun exec i steps => (runScheduledSteps_spec exec steps i).1,
    fun exec i steps => (runScheduledSteps_spec exec steps i).2⟩
  intro st t r hr
  have hr' : r ∈ (processProfiles
      (if t.current_time ≠ st.last_minute then [] else st.last_triggered)
      t.current_time t.current_day t.profiles).2 := by
    simpa [schedTick] using hr
  exact processProfiles_runs t.current_time t.current_day t.profiles _ r hr'

theorem claim_C6_witness :
    ((⟨"p1", "Work", [stepAw]⟩ : ScheduledRun) ∈
        (schedTick ⟨[], ""⟩ tickW).2 ∧
      ∃ p, p ∈ tickW.profiles ∧
        (⟨"p1", "Work", [stepAw]⟩ : ScheduledRun).profile_id = p.id ∧
        (⟨"p1", "Work", [stepAw]⟩ : ScheduledRun).profile_name = p.name ∧
        (⟨"p1", "Work", [stepAw]⟩ : ScheduledRun).steps =
          p.steps.filter (·.enabled)) ∧
    (runScheduledSteps (fun i => if i = 0 then .error "x" else .ok ()) 0
        [stepAw, stepBw]).2 = [500, 500] ∧
    (runScheduledSteps (fun i => if i = 0 then .error "x" else .ok ()) 0
        [stepAw, stepBw]).1 = [("A", "x")] :=
  ⟨⟨by decide, claim_C6.1 ⟨[], ""⟩ tickW ⟨"p1", "Work", [stepAw]⟩ (by decide)⟩,
    by decide, by decide⟩

end WorkSwitch
